import Mathlib

/-!
# Verification of the Holo-Ghost core against its specification

This file shallowly embeds the core data structures and operations of the
Holo-Ghost repository (provenance chain, cascade lattice, performance
identity, orchestrator flagging) in Lean 4 and proves or refutes the
specification claims about them.

Modelling conventions:
* SHA-256 over the canonical JSON encoding of a block is modelled by the
  free constructor `Hash.mk` over the hashed fields (the standard
  collision-free idealisation of a cryptographic hash); the sentinel
  string "GENESIS" is the constructor `Hash.genesis`.
* Python floats are modelled by rationals `ℚ` (real-valued results of
  `compare`, which takes a square root, live in `ℝ`).
* Python dicts are modelled by association lists in insertion order;
  Python lists by Lean lists; `time.time()` values are passed in as
  explicit arguments.
* The SQLite table `chain` is modelled by the list `blocks` in insertion
  order; `SELECT ... WHERE idx = ?` is `List.find?` on the `index` field.
-/

namespace HoloGhost

/-- Idealised SHA-256 value space: `genesis` is the sentinel string
"GENESIS", and `Hash.mk index timestamp event_type data previous_hash` is
the digest of the canonical JSON encoding of those five fields
(`chain.py`, `record`). Constructor injectivity models collision freedom. -/
inductive Hash where
  | genesis : Hash
  | mk (index : Nat) (timestamp : Nat) (event_type : String)
      (data : String) (previous_hash : Hash) : Hash
deriving DecidableEq, Repr

/-- `ChainBlock` from `chain.py`: one row of the `chain` table. The
`data` field holds the canonical JSON serialization of the payload dict. -/
structure ChainBlock where
  index : Nat
  timestamp : Nat
  event_type : String
  data : String
  previous_hash : Hash
  block_hash : Hash
deriving DecidableEq, Repr

/-- In-memory plus persisted state of `ProvenanceChain` (`chain.py`):
`blocks` is the SQLite `chain` table in insertion order, `idx` is the
in-memory `_index` counter and `latest` the in-memory `_latest_hash`. -/
structure ProvenanceChain where
  blocks : List ChainBlock
  idx : Nat
  latest : Hash
deriving DecidableEq, Repr

/-- A fresh chain: empty table, `_index = 0`, `_latest_hash = "GENESIS"`. -/
def ProvenanceChain.empty : ProvenanceChain :=
  { blocks := [], idx := 0, latest := Hash.genesis }

/-- One call's inputs to `ProvenanceChain.record`: the serialized payload,
the `event_type` argument and the `time.time()` stamp taken in the call. -/
structure RecordInput where
  data : String
  event_type : String
  timestamp : Nat
deriving DecidableEq, Repr

/-- `ProvenanceChain.record` (`chain.py` lines 142–189), successful run:
bump `_index`, hash `{index, timestamp, event_type, data, previous_hash}`,
insert the row, then advance `_latest_hash`. -/
def ProvenanceChain.record (c : ProvenanceChain) (r : RecordInput) :
    ProvenanceChain :=
  let newIdx := c.idx + 1
  let bh := Hash.mk newIdx r.timestamp r.event_type r.data c.latest
  let b : ChainBlock :=
    { index := newIdx, timestamp := r.timestamp, event_type := r.event_type
      data := r.data, previous_hash := c.latest, block_hash := bh }
  { blocks := c.blocks ++ [b], idx := newIdx, latest := bh }

/-- The block returned by a successful `record` call. -/
def ProvenanceChain.recordBlock (c : ProvenanceChain) (r : RecordInput) :
    ChainBlock :=
  let newIdx := c.idx + 1
  { index := newIdx, timestamp := r.timestamp, event_type := r.event_type
    data := r.data, previous_hash := c.latest
    block_hash := Hash.mk newIdx r.timestamp r.event_type r.data c.latest }

/-- A sequence of successful `record` calls, in order. -/
def ProvenanceChain.runRecords (c : ProvenanceChain) (rs : List RecordInput) :
    ProvenanceChain :=
  rs.foldl ProvenanceChain.record c

/-- `ProvenanceChain.record` when the SQLite `INSERT` raises: the
statements before the insert have already executed (`self._index += 1`),
the exception propagates, and the statements after the insert
(`self._latest_hash = block_hash`) never run.  The table is unchanged. -/
def ProvenanceChain.recordPersistFails (c : ProvenanceChain) :
    ProvenanceChain :=
  { c with idx := c.idx + 1 }

/-- `ProvenanceChain.get_block`: `SELECT ... WHERE idx = ?` on the table. -/
def ProvenanceChain.get_block (c : ProvenanceChain) (i : Nat) :
    Option ChainBlock :=
  c.blocks.find? (fun b => b.index == i)

/-- Outcome of `verify_chain` (`chain.py` lines 250–299).  The code
returns a bare `bool` and prints the offending index; we keep the index
in the result.  `missing` is the silent `if not block: return False`
branch, `prevMismatch`/`hashMismatch` are the two printed
"Chain broken at block {idx}" branches. -/
inductive VerifyResult where
  | ok : VerifyResult
  | missing (idx : Nat) : VerifyResult
  | prevMismatch (idx : Nat) : VerifyResult
  | hashMismatch (idx : Nat) : VerifyResult
deriving DecidableEq, Repr

/-- The boolean actually returned by `verify_chain`. -/
def VerifyResult.toBool : VerifyResult → Bool
  | .ok => true
  | _ => false

/-- The first failing index reported by `verify_chain` (`none` when the
chain verifies; the `missing` branch returns false without printing, we
still record where the walk stopped). -/
def VerifyResult.failIdx : VerifyResult → Option Nat
  | .ok => none
  | .missing i => some i
  | .prevMismatch i => some i
  | .hashMismatch i => some i

/-- The `for idx in range(start_index, end_index + 1)` loop of
`verify_chain`, with `fuel` the number of remaining indices and `prev`
the running `prev_hash` (`none` models Python `None`). -/
def verifyLoop (c : ProvenanceChain) : Option Hash → Nat → Nat → VerifyResult
  | _, _, 0 => .ok
  | prev, i, fuel + 1 =>
    match c.get_block i with
    | none => .missing i
    | some b =>
      if some b.previous_hash ≠ prev then .prevMismatch i
      else if Hash.mk b.index b.timestamp b.event_type b.data b.previous_hash
          ≠ b.block_hash then .hashMismatch i
      else verifyLoop c (some b.block_hash) (i + 1) fuel

/-- `ProvenanceChain.verify_chain(start, end)`: seed `prev_hash` with
"GENESIS" when starting at 1, else with the previous block's hash, then
walk the index range. -/
def ProvenanceChain.verify_chain (c : ProvenanceChain)
    (start : Nat) (endIdx : Nat) : VerifyResult :=
  let prev : Option Hash :=
    if start = 1 then some Hash.genesis
    else match c.get_block (start - 1) with
      | some pb => some pb.block_hash
      | none => none
  verifyLoop c prev start (endIdx + 1 - start)

/-- Well-formed run of blocks: consecutive indices starting at `i + 1`,
each block hash recomputable from its fields, each `previous_hash` equal
to the running hash `prev`. -/
def Linked : Hash → Nat → List ChainBlock → Prop
  | _, _, [] => True
  | prev, i, b :: bs =>
    b.index = i + 1 ∧ b.previous_hash = prev ∧
    b.block_hash = Hash.mk (i + 1) b.timestamp b.event_type b.data prev ∧
    Linked b.block_hash (i + 1) bs

/-- Consecutive indices starting at `i + 1` (the part of `Linked` that
survives mutating a block in place). -/
def IdxFrom : Nat → List ChainBlock → Prop
  | _, [] => True
  | i, b :: bs => b.index = i + 1 ∧ IdxFrom (i + 1) bs

/-- The list of rows inserted by a sequence of successful `record` calls
starting from in-memory index `i` and latest hash `prev`. -/
def buildChain : Nat → Hash → List RecordInput → List ChainBlock
  | _, _, [] => []
  | i, prev, r :: rs =>
    { index := i + 1, timestamp := r.timestamp, event_type := r.event_type
      data := r.data, previous_hash := prev
      block_hash := Hash.mk (i + 1) r.timestamp r.event_type r.data prev } ::
      buildChain (i + 1) (Hash.mk (i + 1) r.timestamp r.event_type r.data prev) rs

/-- The in-memory `_latest_hash` after those calls. -/
def buildLatest : Nat → Hash → List RecordInput → Hash
  | _, prev, [] => prev
  | i, prev, r :: rs =>
    buildLatest (i + 1) (Hash.mk (i + 1) r.timestamp r.event_type r.data prev) rs

/-- `b'` is `b` with exactly one of the five fields named by the claim
(timestamp, event type, payload, previous hash, block hash) replaced by a
different value; the primary key `index` is untouched. -/
def MutOne (b b' : ChainBlock) : Prop :=
  (∃ t, t ≠ b.timestamp ∧ b' = { b with timestamp := t }) ∨
  (∃ e, e ≠ b.event_type ∧ b' = { b with event_type := e }) ∨
  (∃ d, d ≠ b.data ∧ b' = { b with data := d }) ∨
  (∃ p, p ≠ b.previous_hash ∧ b' = { b with previous_hash := p }) ∨
  (∃ h, h ≠ b.block_hash ∧ b' = { b with block_hash := h })

/-- External mutation of the stored row with `idx = i`: every row whose
index is `i` is replaced by `b'` (with unique indices, exactly one row). -/
def ProvenanceChain.mutateBlock (c : ProvenanceChain) (i : Nat)
    (b' : ChainBlock) : ProvenanceChain :=
  { c with blocks := c.blocks.map (fun b => if b.index = i then b' else b) }

/-- `InputSnapshot` from `ghost.py`: a moment of captured input. Fields
default exactly as in the dataclass (`InputSnapshot(timestamp=now)`). -/
structure InputSnapshot where
  timestamp : Nat
  mouse_x : Int := 0
  mouse_y : Int := 0
  mouse_dx : Int := 0
  mouse_dy : Int := 0
  mouse_velocity : ℚ := 0
  mouse_acceleration : ℚ := 0
  mouse_buttons : List (String × Bool) := []
  keys_pressed : List String := []
  key_timings : List (String × ℚ) := []
  active_window : String := ""
  active_game : Option String := none
deriving DecidableEq, Repr

/-- `InputSnapshot(timestamp=time.time())`: all other fields default. -/
def InputSnapshot.fresh (now : Nat) : InputSnapshot := { timestamp := now }

/-- `Flag` from `ghost.py`. -/
structure Flag where
  timestamp : Nat
  flag_type : String
  confidence : ℚ
  description : String
  snapshot : InputSnapshot
  merkle_hash : Option Hash := none
  clip_path : Option String := none
deriving DecidableEq, Repr

/-- Payload of a bus event (`events.py`): we model the flag-event payload
`{type, confidence, description, merkle}` precisely and tag the others. -/
inductive EventData where
  | flagData (flag_type : String) (confidence : ℚ) (description : String)
      (merkle : Option Hash) : EventData
  | other (tag : String) : EventData
deriving DecidableEq, Repr

/-- `Event` from `events.py` (the lattice hooks default to `None`/`[]`). -/
structure Event where
  type : String
  data : EventData
  lattice_id : Option String := none
  ancestry : List String := []
deriving DecidableEq, Repr

/-- `EventBus` state (`events.py`): the bounded history ring buffer
(`_max_history = 1000`).  Subscriber callbacks are external collaborators
and carry no modelled state. -/
structure EventBus where
  history : List Event
deriving DecidableEq, Repr

/-- `EventBus.emit`: append to history, evicting the oldest entry past
1000. -/
def EventBus.emit (bus : EventBus) (e : Event) : EventBus :=
  let h := bus.history ++ [e]
  { history := if h.length > 1000 then h.drop 1 else h }

/-- The `HoloGhost` orchestrator state relevant to flagging
(`ghost.py`): the optional provenance chain, the event bus, the input
ring buffer and the flag list.  `ghost.py` holds no lattice. -/
structure Ghost where
  chain : Option ProvenanceChain
  events : EventBus
  input_buffer : List InputSnapshot
  flags : List Flag
deriving DecidableEq, Repr

/-- `HoloGhost._flag` (`ghost.py` lines 339–374): build a `Flag` whose
`merkle_hash` is the chain's current `latest_hash` (or `None` without a
chain), append it to `_flags`, and emit a bus event of type "flag".  The
clip-capture task and the `on_flag` callback are external fire-and-forget
collaborators with no effect on this state. -/
def Ghost.flagInternal (g : Ghost) (flag_type : String)
    (confidence : ℚ) (description : String) (snapshot : InputSnapshot)
    (now : Nat) : Ghost :=
  let f : Flag :=
    { timestamp := now, flag_type := flag_type, confidence := confidence
      description := description, snapshot := snapshot
      merkle_hash := g.chain.map (·.latest), clip_path := none }
  { g with
    flags := g.flags ++ [f]
    events := g.events.emit
      { type := "flag"
        data := .flagData flag_type confidence description f.merkle_hash } }

/-- `HoloGhost.flag` (`ghost.py` lines 393–400), the public manual-flag
API: attach the most recent buffered snapshot, or a fresh default
snapshot stamped with the current time when the buffer is empty. -/
def Ghost.flag (g : Ghost) (flag_type : String) (confidence : ℚ)
    (description : String) (now : Nat) : Ghost :=
  let snapshot := match g.input_buffer.getLast? with
    | some s => s
    | none => InputSnapshot.fresh now
  g.flagInternal flag_type confidence description snapshot now

/-- `LatticeNode` from `lattice/core.py` (`data` is the opaque payload
dict in canonical serialization; `strength`/`energy` default to 1.0). -/
structure LatticeNode where
  id : String
  type : String := "generic"
  data : String := ""
  timestamp : Nat := 0
  strength : ℚ := 1
  energy : ℚ := 1
deriving DecidableEq, Repr

/-- `LatticeEdge` from `lattice/core.py`. -/
structure LatticeEdge where
  source_id : String
  target_id : String
  type : String := "causes"
  weight : ℚ := 1
deriving DecidableEq, Repr

/-- `CausalLattice` state: `nodes` is the Python dict id → node in
insertion order, `edges` the edge list. -/
structure CausalLattice where
  nodes : List (String × LatticeNode)
  edges : List LatticeEdge
deriving DecidableEq, Repr

/-- Python `nid in self.nodes` / `self.nodes[nid]` lookup. -/
def lookupNode (nodes : List (String × LatticeNode)) (nid : String) :
    Option (String × LatticeNode) :=
  nodes.find? (fun q => q.1 == nid)

/-- Membership test `nid in self.nodes`. -/
def hasKey (nodes : List (String × LatticeNode)) (nid : String) : Bool :=
  (lookupNode nodes nid).isSome

/-- Dict write `self.nodes[id] = node`: replace an existing binding,
else append. -/
def dictSet (nodes : List (String × LatticeNode)) (nid : String)
    (node : LatticeNode) : List (String × LatticeNode) :=
  match nodes with
  | [] => [(nid, node)]
  | (k, v) :: rest =>
    if k == nid then (nid, node) :: rest else (k, v) :: dictSet rest nid node

/-- `CausalLattice.add_edge`. -/
def CausalLattice.add_edge (lat : CausalLattice) (source_id target_id : String)
    (edge_type : String := "causes") (weight : ℚ := 1) : CausalLattice :=
  { lat with edges := lat.edges ++
      [{ source_id := source_id, target_id := target_id, type := edge_type
         weight := weight }] }

/-- `CausalLattice.add_node`, with the generated `uuid4` id passed in as
`nid`: store the node, then link each *known* parent with a `leads_to`
edge (unknown parent ids are silently skipped). -/
def CausalLattice.add_node (lat : CausalLattice) (nid : String)
    (node_type : String) (data : String) (ts : Nat)
    (parents : List String) : CausalLattice :=
  let node : LatticeNode :=
    { id := nid, type := node_type, data := data, timestamp := ts }
  let lat1 : CausalLattice := { lat with nodes := dictSet lat.nodes nid node }
  parents.foldl
    (fun l p => if hasKey l.nodes p then l.add_edge p nid "leads_to" 1 else l)
    lat1

/-- `CausalLattice.prune`: keep nodes with `strength >= threshold`, keep
edges whose both endpoints survive. -/
def CausalLattice.prune (lat : CausalLattice) (threshold : ℚ) :
    CausalLattice :=
  let surviving := lat.nodes.filter (fun p => decide (threshold ≤ p.2.strength))
  { nodes := surviving
    edges := lat.edges.filter
      (fun e => hasKey surviving e.source_id && hasKey surviving e.target_id) }

mutual
/-- The recursive `trace(nid, current_depth)` closure of `get_lineage`
(`lattice/core.py` lines 79–98): stop on exhausted depth or visited id,
else mark visited, append the node when known, and recurse into the
parents (sources of edges targeting `nid`) with one less depth. -/
def traceOne (lat : CausalLattice) :
    Nat → String → List String → List LatticeNode →
      List String × List LatticeNode
  | 0, _, visited, lineage => (visited, lineage)
  | fuel + 1, nid, visited, lineage =>
    if nid ∈ visited then (visited, lineage)
    else
      match lookupNode lat.nodes nid with
      | none => (nid :: visited, lineage)
      | some p =>
        traceMany lat fuel
          ((lat.edges.filter (fun e => e.target_id == nid)).map
            (fun e => e.source_id))
          (nid :: visited) (lineage ++ [p.2])
termination_by fuel _ _ _ => (fuel, 0)

/-- The `for p_id in parents: trace(p_id, current_depth - 1)` loop. -/
def traceMany (lat : CausalLattice) :
    Nat → List String → List String → List LatticeNode →
      List String × List LatticeNode
  | _, [], visited, lineage => (visited, lineage)
  | fuel, p :: ps, visited, lineage =>
    let st := traceOne lat fuel p visited lineage
    traceMany lat fuel ps st.1 st.2
termination_by fuel ps _ _ => (fuel, ps.length + 1)
end

/-- `CausalLattice.get_lineage(node_id, depth)` (depth is a Python int;
`depth.toNat` encodes that any `depth ≤ 0` stops immediately). -/
def CausalLattice.get_lineage (lat : CausalLattice) (node_id : String)
    (depth : Int) : List LatticeNode :=
  (traceOne lat depth.toNat node_id [] []).2

/-- A lattice is well-formed when every stored binding maps an id to the
node carrying that id — the invariant `self.nodes[node.id] = node` that
`add_node` maintains. -/
def CausalLattice.WF (lat : CausalLattice) : Prop :=
  ∀ p ∈ lat.nodes, p.2.id = p.1

/-- Backward reachability along edges (target → source): the ancestor
relation `get_lineage` traverses. -/
inductive BackReach (edges : List LatticeEdge) : String → String → Prop where
  | refl (a : String) : BackReach edges a a
  | step {a : String} (e : LatticeEdge) :
      e ∈ edges → BackReach edges a e.target_id →
      BackReach edges a e.source_id

/-- Invariant carried by the lineage traversal: every collected node's id
is already marked visited, and the collected ids are pairwise distinct. -/
def LineageInv (st : List String × List LatticeNode) : Prop :=
  (∀ n ∈ st.2, n.id ∈ st.1) ∧ (st.2.map (fun n => n.id)).Nodup

/-- The spec's lineage scenario: an observation node and a flag node
linked by a `leads_to` edge. -/
def demoLatticeC7 : CausalLattice :=
  { nodes := [("n1", { id := "n1", type := "obs" }),
              ("n2", { id := "n2", type := "flag" })]
    edges := [{ source_id := "n1", target_id := "n2", type := "leads_to" }] }

/-- A lattice with one weak node (`strength = 1/20`) and two strong
ones, chained by two edges — pruning at `1/10` removes "a" and the edge
into "b". -/
def demoLatticeC8 : CausalLattice :=
  { nodes := [("a", { id := "a", strength := 0 }),
              ("b", { id := "b" }), ("c", { id := "c" })]
    edges := [{ source_id := "a", target_id := "b" },
              { source_id := "b", target_id := "c" }] }

/-- Python `int()` truncation toward zero of a (rational-modelled)
float. -/
def pyTrunc (q : ℚ) : Int := if 0 ≤ q then ⌊q⌋ else -⌊-q⌋

/-- Dict lookup `m.get(k)` on an association list (first binding). -/
def alookup {K V : Type} [BEq K] (m : List (K × V)) (k : K) : Option V :=
  (m.find? (fun p => p.1 == k)).map (fun p => p.2)

/-- Dict write `m[k] = v`: replace the first binding of `k` in place,
else append. -/
def aset {K V : Type} [BEq K] : List (K × V) → K → V → List (K × V)
  | [], k, v => [(k, v)]
  | (k', v') :: rest, k, v =>
    if k' == k then (k, v) :: rest else (k', v') :: aset rest k v

/-- `l[n] = f(l[n])` on a Python list (out-of-range untouched). -/
def listModify {α : Type} : List α → Nat → (α → α) → List α
  | [], _, _ => []
  | a :: rest, 0, f => f a :: rest
  | a :: rest, n + 1, f => a :: listModify rest n f

/-- `l.append(x)` followed by `l.pop(0)` when the length exceeds `cap`
(the bounded-history idiom of `identity.py`). -/
def boundedAppend (cap : Nat) (l : List ℚ) (x : ℚ) : List ℚ :=
  if (l ++ [x]).length > cap then (l ++ [x]).drop 1 else l ++ [x]

/-- The fields of an input-snapshot dict that
`PerformanceIdentity.update` reads: `timestamp`, `mouse.velocity`,
`mouse.x`, `mouse.y` and the `keyboard.timings` dict (items in insertion
order).  Mouse buttons are read but the click-rhythm step is a `pass`. -/
structure IdSnapshot where
  timestamp : ℚ := 0
  velocity : ℚ := 0
  x : ℚ := 0
  y : ℚ := 0
  timings : List (String × ℚ) := []
deriving DecidableEq, Repr

/-- `PerformanceIdentity` from `lattice/identity.py` (floats as `ℚ`;
dicts as association lists in insertion order; `lastEventTime` is the
private `_last_event_time`, default 0.0). -/
structure PerformanceIdentity where
  player_id : String
  velocity_profile : List (Int × ℚ) := []
  timing_priors : List ℚ := []
  spatial_heat_map : List (List Int) := List.replicate 10 (List.replicate 10 0)
  click_rhythms : List ℚ := []
  keypress_durations : List (String × List ℚ) := []
  reaction_times : List ℚ := []
  lastEventTime : ℚ := 0
deriving DecidableEq, Repr

/-- A fresh `PerformanceIdentity(player_id)`. -/
def PerformanceIdentity.fresh (pid : String) : PerformanceIdentity :=
  { player_id := pid }

/-- `PerformanceIdentity.update` (`identity.py` lines 40–80): bucket the
velocity (`int(vel // 500) * 500`, i.e. `⌊vel/500⌋·500`) and increment
its count; increment the heat-map cell (`int(x/192)`/`int(y/108)`
clamped to `[0,9]`); append the inter-event delta to `timing_priors`
(cap 1000, FIFO) only when `_last_event_time > 0` and `0 < dt < 2.0`;
append each reported per-key duration to that key's bounded history
(cap 100, FIFO); finally set `_last_event_time` to the timestamp. -/
def PerformanceIdentity.update (p : PerformanceIdentity) (s : IdSnapshot) :
    PerformanceIdentity :=
  { p with
    velocity_profile :=
      aset p.velocity_profile (⌊s.velocity / 500⌋ * 500)
        ((alookup p.velocity_profile (⌊s.velocity / 500⌋ * 500)).getD 0 + 1)
    spatial_heat_map :=
      listModify p.spatial_heat_map (min 9 (max 0 (pyTrunc (s.y / 108)))).toNat
        (fun row =>
          listModify row (min 9 (max 0 (pyTrunc (s.x / 192)))).toNat
            (fun c => c + 1))
    timing_priors :=
      if p.lastEventTime > 0 ∧ 0 < s.timestamp - p.lastEventTime ∧
          s.timestamp - p.lastEventTime < 2 then
        boundedAppend 1000 p.timing_priors (s.timestamp - p.lastEventTime)
      else p.timing_priors
    keypress_durations :=
      s.timings.foldl
        (fun m kv =>
          aset m kv.1 (boundedAppend 100 ((alookup m kv.1).getD []) kv.2))
        p.keypress_durations
    lastEventTime := s.timestamp }

/-- A sequence of `update` calls, in order. -/
def PerformanceIdentity.updates (p : PerformanceIdentity)
    (ss : List IdSnapshot) : PerformanceIdentity :=
  ss.foldl PerformanceIdentity.update p

/-- The decimal string `str(k)` a JSON object key is coerced to on
`save`, abstracted to its character content: a sign flag plus the
base-10 digits of the magnitude. -/
def keyStr (k : Int) : Bool × List Nat :=
  (decide (k < 0), Nat.digits 10 k.natAbs)

/-- `int(s)` applied on `load` to recover the integer bucket key. -/
def keyParse (s : Bool × List Nat) : Int :=
  if s.1 then -(((Nat.ofDigits 10 s.2 : ℕ)) : Int)
  else (((Nat.ofDigits 10 s.2 : ℕ)) : Int)

/-- The JSON document written by `PerformanceIdentity.save`
(`identity.py` lines 107–117): every public field, with the integer
bucket keys coerced to decimal strings (`{str(k): v ...}`);
`_last_event_time` is *not* serialized. -/
structure SavedIdentity where
  player_id : String
  velocity_profile : List ((Bool × List Nat) × ℚ)
  spatial_heat_map : List (List Int)
  timing_priors : List ℚ
  click_rhythms : List ℚ
  keypress_durations : List (String × List ℚ)
  reaction_times : List ℚ
deriving DecidableEq, Repr

/-- `PerformanceIdentity.save`. -/
def PerformanceIdentity.save (p : PerformanceIdentity) : SavedIdentity :=
  { player_id := p.player_id
    velocity_profile := p.velocity_profile.map (fun q => (keyStr q.1, q.2))
    spatial_heat_map := p.spatial_heat_map
    timing_priors := p.timing_priors
    click_rhythms := p.click_rhythms
    keypress_durations := p.keypress_durations
    reaction_times := p.reaction_times }

/-- `PerformanceIdentity.load` (`identity.py` lines 119–130): rebuild the
identity with `{int(k): v ...}` on the bucket keys; the constructor
leaves `_last_event_time` at its default 0.0. -/
def PerformanceIdentity.load (d : SavedIdentity) : PerformanceIdentity :=
  { player_id := d.player_id
    velocity_profile := d.velocity_profile.map (fun q => (keyParse q.1, q.2))
    spatial_heat_map := d.spatial_heat_map
    timing_priors := d.timing_priors
    click_rhythms := d.click_rhythms
    keypress_durations := d.keypress_durations
    reaction_times := d.reaction_times }

/-- The union of bucket keys of two velocity profiles (`set(v1) ∪
set(v2)`, in first-occurrence order). -/
def unionKeys (v1 v2 : List (Int × ℚ)) : List Int :=
  (v1.map (fun p => p.1) ++ v2.map (fun p => p.1)).dedup

/-- `v.get(bucket, 0)`. -/
def profileGet (v : List (Int × ℚ)) (k : Int) : ℚ := (alookup v k).getD 0

/-- The dot product over the given bucket keys. -/
def dotOn (v1 v2 : List (Int × ℚ)) (keys : List Int) : ℚ :=
  (keys.map (fun k => profileGet v1 k * profileGet v2 k)).sum

/-- The squared Euclidean norm of one profile over the given keys. -/
def normSqOn (v : List (Int × ℚ)) (keys : List Int) : ℚ :=
  (keys.map (fun k => profileGet v k * profileGet v k)).sum

/-- `PerformanceIdentity.compare` (`identity.py` lines 82–105): cosine
similarity over the union of bucket keys; an empty union yields 1.0; a
zero norm yields 0.0.  The code tests `norm == 0` on the float square
roots; as the squared norms are sums of squares (hence nonneg),
`sqrt s = 0 ↔ s = 0`, and we branch on the rational squared norms. -/
noncomputable def PerformanceIdentity.compare
    (a b : PerformanceIdentity) : ℝ :=
  if unionKeys a.velocity_profile b.velocity_profile = [] then 1
  else if normSqOn a.velocity_profile
        (unionKeys a.velocity_profile b.velocity_profile) = 0 ∨
      normSqOn b.velocity_profile
        (unionKeys a.velocity_profile b.velocity_profile) = 0 then 0
  else
    (dotOn a.velocity_profile b.velocity_profile
        (unionKeys a.velocity_profile b.velocity_profile) : ℝ) /
      (Real.sqrt (normSqOn a.velocity_profile
          (unionKeys a.velocity_profile b.velocity_profile) : ℝ) *
        Real.sqrt (normSqOn b.velocity_profile
          (unionKeys a.velocity_profile b.velocity_profile) : ℝ))

/-- The subsequence of inter-event deltas accepted into `timing_priors`
by a run of `update` calls, threading `_last_event_time` from `last`. -/
def acceptedDeltas : ℚ → List IdSnapshot → List ℚ
  | _, [] => []
  | last, s :: ss =>
    (if last > 0 ∧ 0 < s.timestamp - last ∧ s.timestamp - last < 2 then
      [s.timestamp - last]
     else []) ++ acceptedDeltas s.timestamp ss

/-- The most recent `n` entries of a list (FIFO retention). -/
def lastN (n : Nat) (l : List ℚ) : List ℚ := l.drop (l.length - n)

/-- All hold durations reported for key `k` across a run of snapshots,
in order. -/
def allDurations (k : String) : List IdSnapshot → List ℚ
  | [] => []
  | s :: ss =>
    (s.timings.filter (fun kv => kv.1 == k)).map (fun kv => kv.2)
      ++ allDurations k ss

/-- Two snapshots one second apart, each reporting a hold duration for
key "w": the second update accepts the delta 1 into `timing_priors`. -/
def demoSnapshots : List IdSnapshot :=
  [{ timestamp := 1, velocity := 600, timings := [("w", 1/2)] },
   { timestamp := 2, timings := [("w", 1/4)] }]

/-- One in-flight `record` call: its program counter between the shared
state accesses of `chain.py`'s `record`, and the `block_hash` local. -/
structure RecThread where
  pc : Nat := 0
  localHash : Hash := Hash.genesis
  input : RecordInput
deriving DecidableEq, Repr

/-- Shared chain plus the in-flight `record` calls. -/
structure RecSystem where
  chain : ProvenanceChain
  threads : List RecThread
deriving DecidableEq, Repr

/-- One atomic micro-step of thread `t` inside `record`, following the
statement order of `chain.py` lines 142–189 with no lock around them:
pc 0: `self._index += 1` (generously treated as one atomic step);
pc 1: read `self._index`/`self._latest_hash`, compute `block_hash`,
`INSERT` the row; pc 2: `self._latest_hash = block_hash`.  A thread
switch may occur between any two of these, as nothing serializes them. -/
def recStep (sys : RecSystem) (t : Nat) : RecSystem :=
  match sys.threads[t]? with
  | none => sys
  | some th =>
    match th.pc with
    | 0 =>
      { sys with
        chain := { sys.chain with idx := sys.chain.idx + 1 }
        threads := sys.threads.set t { th with pc := 1 } }
    | 1 =>
      let i := sys.chain.idx
      let h := Hash.mk i th.input.timestamp th.input.event_type
        th.input.data sys.chain.latest
      let b : ChainBlock :=
        { index := i, timestamp := th.input.timestamp
          event_type := th.input.event_type, data := th.input.data
          previous_hash := sys.chain.latest, block_hash := h }
      { sys with
        chain := { sys.chain with blocks := sys.chain.blocks ++ [b] }
        threads := sys.threads.set t { th with pc := 2, localHash := h } }
    | 2 =>
      { sys with
        chain := { sys.chain with latest := th.localHash }
        threads := sys.threads.set t { th with pc := 3 } }
    | _ => sys

/-- Run a schedule (a list of thread ids) of micro-steps. -/
def recRun (sys : RecSystem) (sched : List Nat) : RecSystem :=
  sched.foldl recStep sys

/-- Two concurrent `record` calls on a fresh chain. -/
def demoRace : RecSystem :=
  { chain := ProvenanceChain.empty
    threads := [{ input := ⟨"A", "input", 1⟩ },
                { input := ⟨"B", "input", 2⟩ }] }

theorem Linked.idxFrom : ∀ {prev i L}, Linked prev i L → IdxFrom i L := by
  intro prev i L
  induction L generalizing prev i with
  | nil => intro _; trivial
  | cons b bs ih =>
    intro h
    exact ⟨h.1, ih h.2.2.2⟩

theorem idxFrom_mem_gt : ∀ {i L b}, IdxFrom i L → b ∈ L → i < b.index := by
  intro i L
  induction L generalizing i with
  | nil => intro b _ hb; cases hb
  | cons a as ih =>
    intro b h hb
    rcases List.mem_cons.mp hb with rfl | hb
    · have := h.1; omega
    · have := ih h.2 hb; omega

theorem idxFrom_set : ∀ {i L} (m : Nat) (b' : ChainBlock),
    IdxFrom i L → b'.index = i + m + 1 → IdxFrom i (L.set m b') := by
  intro i L
  induction L generalizing i with
  | nil => intro m b' h _; simpa using h
  | cons a as ih =>
    intro m b' h hb'
    cases m with
    | zero => exact ⟨by omega, h.2⟩
    | succ m =>
      refine ⟨h.1, ih m b' h.2 (by omega)⟩

/-- `find?` by index over a consecutively indexed list is positional
lookup. -/
theorem find?_eq_get? : ∀ {L : List ChainBlock} {i : Nat}, IdxFrom i L →
    ∀ k, i < k → L.find? (fun b => b.index == k) = L[k - i - 1]? := by
  intro L
  induction L with
  | nil => intro i _ k _; simp
  | cons a as ih =>
    intro i h k hk
    have hai : a.index = i + 1 := h.1
    by_cases hka : a.index = k
    · have hpos : (a.index == k) = true := by simp [hka]
      simp only [List.find?, hpos]
      have h0 : k - i - 1 = 0 := by omega
      rw [h0]
      simp
    · have hneg : (a.index == k) = false := by simp [hka]
      simp only [List.find?, hneg]
      rw [ih h.2 k (by omega)]
      have hs : k - i - 1 = (k - (i + 1) - 1) + 1 := by omega
      rw [hs]
      simp

theorem get_block_eq_get? {c : ProvenanceChain} (h : IdxFrom 0 c.blocks)
    {k : Nat} (hk : 1 ≤ k) :
    c.get_block k = c.blocks[k - 1]? := by
  unfold ProvenanceChain.get_block
  rw [find?_eq_get? h k (by omega)]
  rfl

theorem runRecords_eq : ∀ (rs : List RecordInput) (c : ProvenanceChain),
    c.runRecords rs =
      { blocks := c.blocks ++ buildChain c.idx c.latest rs
        idx := c.idx + rs.length
        latest := buildLatest c.idx c.latest rs } := by
  intro rs
  induction rs with
  | nil => intro c; simp [ProvenanceChain.runRecords, buildChain, buildLatest]
  | cons r rs ih =>
    intro c
    show (c.record r).runRecords rs = _
    rw [ih]
    simp [ProvenanceChain.record, buildChain, buildLatest]
    omega

theorem buildChain_length : ∀ (rs : List RecordInput) (i : Nat) (prev : Hash),
    (buildChain i prev rs).length = rs.length := by
  intro rs
  induction rs with
  | nil => intro i prev; rfl
  | cons r rs ih => intro i prev; simp [buildChain, ih]

theorem buildChain_linked : ∀ (rs : List RecordInput) (i : Nat) (prev : Hash),
    Linked prev i (buildChain i prev rs) := by
  intro rs
  induction rs with
  | nil => intro i prev; trivial
  | cons r rs ih =>
    intro i prev
    exact ⟨rfl, rfl, rfl, ih (i + 1) _⟩

/-- The verification loop accepts any well-linked stretch of the chain. -/
theorem verifyLoop_ok : ∀ (fuel : Nat) (c : ProvenanceChain) (i : Nat) (prev : Hash),
    IdxFrom 0 c.blocks →
    Linked prev (i - 1) (c.blocks.drop (i - 1)) →
    1 ≤ i → fuel ≤ c.blocks.length - (i - 1) →
    verifyLoop c (some prev) i fuel = .ok := by
  intro fuel
  induction fuel with
  | zero => intro c i prev _ _ _ _; rfl
  | succ fuel ih =>
    intro c i prev hIdx hLink h1 hf
    rcases hrest : c.blocks.drop (i - 1) with _ | ⟨b, bs⟩
    · have hld := List.length_drop (i - 1) c.blocks
      rw [hrest] at hld
      simp at hld
      omega
    have hld := List.length_drop (i - 1) c.blocks
    rw [hrest] at hld
    simp at hld
    rw [hrest] at hLink
    simp only [Linked] at hLink
    have hI : i - 1 + 1 = i := by omega
    rw [hI] at hLink
    have hget : c.get_block i = some b := by
      rw [get_block_eq_get? hIdx h1]
      have h0 := List.getElem?_drop c.blocks (i - 1) 0
      rw [hrest] at h0
      simpa using h0.symm
    have hdropi : c.blocks.drop i = bs := by
      have h2 := List.drop_drop 1 (i - 1) c.blocks
      rw [hrest, hI] at h2
      simpa using h2.symm
    show verifyLoop c (some prev) i (fuel + 1) = .ok
    simp only [verifyLoop, hget]
    rw [if_neg (not_not_intro (show some b.previous_hash = some prev by
      rw [hLink.2.1]))]
    rw [if_neg (not_not_intro (show
        Hash.mk b.index b.timestamp b.event_type b.data b.previous_hash
          = b.block_hash by rw [hLink.1, hLink.2.1]; exact hLink.2.2.1.symm))]
    apply ih c (i + 1) b.block_hash hIdx
    · simp only [Nat.add_sub_cancel]
      rw [hdropi]
      exact hLink.2.2.2
    · omega
    · simp only [Nat.add_sub_cancel]
      omega

theorem mapIf_id : ∀ {L : List ChainBlock} {j i : Nat} {b' : ChainBlock},
    IdxFrom j L → i ≤ j →
    L.map (fun b => if b.index = i then b' else b) = L := by
  intro L
  induction L with
  | nil => intros; rfl
  | cons a as ih =>
    intro j i b' h hij
    have ha : a.index = j + 1 := h.1
    simp only [List.map_cons]
    rw [if_neg (by omega)]
    rw [ih h.2 (by omega)]

theorem mapIf_eq_set : ∀ {L : List ChainBlock} {j i : Nat} (b' : ChainBlock),
    IdxFrom j L → j < i → i ≤ j + L.length →
    L.map (fun b => if b.index = i then b' else b) = L.set (i - j - 1) b' := by
  intro L
  induction L with
  | nil =>
    intro j i b' _ h1 h2
    simp at h2
    exact absurd h1 (by omega)
  | cons a as ih =>
    intro j i b' h hji hle
    have ha : a.index = j + 1 := h.1
    simp at hle
    by_cases hij : i = j + 1
    · simp only [List.map_cons]
      rw [if_pos (by omega)]
      have h0 : i - j - 1 = 0 := by omega
      rw [h0, List.set_cons_zero]
      rw [mapIf_id h.2 (by omega)]
    · simp only [List.map_cons]
      rw [if_neg (by omega)]
      have hs : i - j - 1 = (i - (j + 1) - 1) + 1 := by omega
      rw [hs, List.set_cons_succ]
      rw [ih b' h.2 (by omega) (by omega)]

theorem MutOne.index_eq {b b' : ChainBlock} (h : MutOne b b') :
    b'.index = b.index := by
  rcases h with ⟨t, _, rfl⟩ | ⟨e, _, rfl⟩ | ⟨d, _, rfl⟩ | ⟨p, _, rfl⟩ |
    ⟨hh, _, rfl⟩ <;> rfl

theorem drop_head_get_block {c : ProvenanceChain} {i : Nat} {x : ChainBlock}
    {xs : List ChainBlock} (hIdx : IdxFrom 0 c.blocks) (h1 : 1 ≤ i)
    (hdrop : c.blocks.drop (i - 1) = x :: xs) :
    c.get_block i = some x ∧ c.blocks.drop i = xs := by
  constructor
  · rw [get_block_eq_get? hIdx h1]
    have h0 := List.getElem?_drop c.blocks (i - 1) 0
    rw [hdrop] at h0
    simpa using h0.symm
  · have hI : i - 1 + 1 = i := by omega
    have h2 := List.drop_drop 1 (i - 1) c.blocks
    rw [hdrop, hI] at h2
    simpa using h2.symm

/-- Walking the verification loop over a chain whose block at relative
position `m` (absolute index `i + m`) was mutated in one field reports
its first failure exactly at index `i + m`. -/
theorem verifyLoop_mut :
    ∀ (m : Nat) (c' : ProvenanceChain) (rest : List ChainBlock)
      (b b' : ChainBlock) (i : Nat) (prev : Hash) (fuel : Nat),
    IdxFrom 0 c'.blocks →
    c'.blocks.drop (i - 1) = rest.set m b' →
    Linked prev (i - 1) rest →
    rest[m]? = some b →
    MutOne b b' →
    1 ≤ i → m + 1 ≤ fuel → fuel ≤ rest.length →
    (verifyLoop c' (some prev) i fuel = .prevMismatch (i + m) ∨
     verifyLoop c' (some prev) i fuel = .hashMismatch (i + m)) := by
  intro m
  induction m with
  | zero =>
    intro c' rest b b' i prev fuel hIdx hdrop hLink hm hmut h1 hfm hfl
    rcases rest with _ | ⟨b0, bs⟩
    · simp at hm
    have hb0 : b0 = b := by simpa using hm
    rw [← hb0] at hmut
    rw [List.set_cons_zero] at hdrop
    obtain ⟨hget, -⟩ := drop_head_get_block hIdx h1 hdrop
    simp only [Linked] at hLink
    have hI : i - 1 + 1 = i := by omega
    rw [hI] at hLink
    obtain ⟨hbi, hbp, hbh, -⟩ := hLink
    rcases fuel with _ | f
    · omega
    have hi0 : i + 0 = i := by omega
    rw [hi0]
    simp only [verifyLoop, hget]
    rcases hmut with ⟨t, ht, rfl⟩ | ⟨e, he, rfl⟩ | ⟨d, hd, rfl⟩ |
      ⟨p, hp, rfl⟩ | ⟨hh, hne, rfl⟩
    · right
      simp [hbp, hbi, hbh, ht]
    · right
      simp [hbp, hbi, hbh, he]
    · right
      simp [hbp, hbi, hbh, hd]
    · left
      have hpprev : p ≠ prev := by rw [← hbp]; exact hp
      simp [hpprev]
    · right
      have hne2 : Hash.mk i b0.timestamp b0.event_type b0.data prev ≠ hh :=
        fun hq => hne (by rw [hbh]; exact hq.symm)
      simp [hbp, hbi, hne2]
  | succ m ih =>
    intro c' rest b b' i prev fuel hIdx hdrop hLink hm hmut h1 hfm hfl
    rcases rest with _ | ⟨a, bs⟩
    · simp at hm
    rw [List.set_cons_succ] at hdrop
    obtain ⟨hget, hdropi⟩ := drop_head_get_block hIdx h1 hdrop
    simp only [Linked] at hLink
    have hI : i - 1 + 1 = i := by omega
    rw [hI] at hLink
    obtain ⟨hai, hap, hah, hrest⟩ := hLink
    rcases fuel with _ | f
    · omega
    simp only [verifyLoop, hget]
    rw [if_neg (not_not_intro (show some a.previous_hash = some prev by
      rw [hap]))]
    rw [if_neg (not_not_intro (show
        Hash.mk a.index a.timestamp a.event_type a.data a.previous_hash
          = a.block_hash by rw [hai, hap]; exact hah.symm))]
    have hm2 : bs[m]? = some b := by simpa using hm
    have hstep := ih c' bs b b' (i + 1) a.block_hash f hIdx
      (by simpa using hdropi) (by simpa using hrest) hm2 hmut
      (by omega) (by omega) (by simp at hfl; omega)
    have hidx2 : i + 1 + m = i + (m + 1) := by omega
    rw [hidx2] at hstep
    exact hstep

/-- `verify_chain(1, n)` seeds the walk with the genesis sentinel. -/
theorem verify_chain_one (c : ProvenanceChain) (n : Nat) :
    c.verify_chain 1 n = verifyLoop c (some Hash.genesis) 1 n := by
  unfold ProvenanceChain.verify_chain
  simp

/-- C1.  For every sequence of `record` calls, `verify_chain(1, N)`
returns true; and mutating any single field (timestamp, event type,
payload, previous hash, or block hash) of any one stored block `i`
afterwards makes `verify_chain(1, N)` return false with the first
failure reported exactly at index `i`, never earlier. -/
theorem C1_chain_integrity (rs : List RecordInput) :
    (ProvenanceChain.empty.runRecords rs).verify_chain 1 rs.length = .ok ∧
    ∀ (i : Nat) (b b' : ChainBlock),
      (ProvenanceChain.empty.runRecords rs).get_block i = some b →
      MutOne b b' →
      (((ProvenanceChain.empty.runRecords rs).mutateBlock i b').verify_chain
          1 rs.length).toBool = false ∧
      (((ProvenanceChain.empty.runRecords rs).mutateBlock i b').verify_chain
          1 rs.length).failIdx = some i := by
  have hblocks : (ProvenanceChain.empty.runRecords rs).blocks
      = buildChain 0 Hash.genesis rs := by
    rw [runRecords_eq]
    rfl
  have hLink : Linked Hash.genesis 0 (buildChain 0 Hash.genesis rs) :=
    buildChain_linked rs 0 _
  have hIdx0 : IdxFrom 0 (ProvenanceChain.empty.runRecords rs).blocks := by
    rw [hblocks]; exact hLink.idxFrom
  have hlen : (buildChain 0 Hash.genesis rs).length = rs.length :=
    buildChain_length rs 0 _
  constructor
  · rw [verify_chain_one]
    apply verifyLoop_ok rs.length _ 1 Hash.genesis hIdx0
    · simp only [Nat.sub_self, List.drop_zero]
      rw [hblocks]
      exact hLink
    · omega
    · simp only [Nat.sub_self, Nat.sub_zero]
      rw [hblocks, hlen]
  · intro i b b' hb hmut
    have hbidx : b.index = i := by
      have := List.find?_some hb
      simpa using this
    have hbmem : b ∈ (ProvenanceChain.empty.runRecords rs).blocks :=
      List.mem_of_find?_eq_some hb
    have hi1 : 1 ≤ i := by
      have := idxFrom_mem_gt hIdx0 hbmem
      omega
    have hgb : (buildChain 0 Hash.genesis rs)[i - 1]? = some b := by
      rw [← hblocks, ← get_block_eq_get? hIdx0 hi1]
      exact hb
    have him : i - 1 < (buildChain 0 Hash.genesis rs).length := by
      by_contra hcon
      rw [List.getElem?_eq_none (by omega)] at hgb
      cases hgb
    have hiN : i ≤ rs.length := by omega
    have hmblocks : ((ProvenanceChain.empty.runRecords rs).mutateBlock i
        b').blocks = (buildChain 0 Hash.genesis rs).set (i - 1) b' := by
      show (ProvenanceChain.empty.runRecords rs).blocks.map _ = _
      rw [hblocks]
      have := mapIf_eq_set b' hLink.idxFrom (show 0 < i by omega)
        (by omega)
      simpa using this
    have hmIdx : IdxFrom 0 ((ProvenanceChain.empty.runRecords
        rs).mutateBlock i b').blocks := by
      rw [hmblocks]
      exact idxFrom_set (i - 1) b' hLink.idxFrom
        (by rw [hmut.index_eq, hbidx]; omega)
    have hml := verifyLoop_mut (i - 1)
      ((ProvenanceChain.empty.runRecords rs).mutateBlock i b')
      (buildChain 0 Hash.genesis rs) b b' 1 Hash.genesis rs.length hmIdx
      (by simpa using hmblocks) (by simpa using hLink) hgb hmut
      (le_refl 1) (by omega) (by omega)
    have h1i : 1 + (i - 1) = i := by omega
    rw [h1i] at hml
    rw [verify_chain_one]
    rcases hml with h | h <;> rw [h] <;> exact ⟨rfl, rfl⟩

/-- Witness for C1: the spec's scenario — record payloads A, B, C, so
`verify_chain(1,3)` is true; corrupt block 2's payload and
`verify_chain(1,3)` reports its first failure at index 2. -/
theorem C1_chain_integrity_witness :
    (ProvenanceChain.empty.runRecords
      [⟨"A", "input", 11⟩, ⟨"B", "input", 12⟩,
        ⟨"C", "input", 13⟩]).verify_chain 1 3 = .ok ∧
    (((ProvenanceChain.empty.runRecords
      [⟨"A", "input", 11⟩, ⟨"B", "input", 12⟩,
        ⟨"C", "input", 13⟩]).mutateBlock 2
      { index := 2, timestamp := 12, event_type := "input", data := "X"
        previous_hash := Hash.mk 1 11 "input" "A" Hash.genesis
        block_hash := Hash.mk 2 12 "input" "B"
          (Hash.mk 1 11 "input" "A" Hash.genesis) }).verify_chain
        1 3).failIdx = some 2 := by
  have h := C1_chain_integrity
    [⟨"A", "input", 11⟩, ⟨"B", "input", 12⟩, ⟨"C", "input", 13⟩]
  refine ⟨h.1, ?_⟩
  exact (h.2 2
    { index := 2, timestamp := 12, event_type := "input", data := "B"
      previous_hash := Hash.mk 1 11 "input" "A" Hash.genesis
      block_hash := Hash.mk 2 12 "input" "B"
        (Hash.mk 1 11 "input" "A" Hash.genesis) }
    { index := 2, timestamp := 12, event_type := "input", data := "X"
      previous_hash := Hash.mk 1 11 "input" "A" Hash.genesis
      block_hash := Hash.mk 2 12 "input" "B"
        (Hash.mk 1 11 "input" "A" Hash.genesis) }
    (by rfl)
    (Or.inr (Or.inr (Or.inl ⟨"X", by decide, rfl⟩)))).2

/-- C2.  The claim (and the spec) require that a failed persistence step
leaves both `_latest_hash` and `_index` unchanged.  The code runs
`self._index += 1` *before* the `INSERT`, so when the insert raises the
table and `_latest_hash` are unchanged but `_index` has advanced; the
next successful `record` then gets index 2 while index 1 is missing from
storage, and `verify_chain(1, _index)` fails. -/
theorem C2_record_persist_failure_state :
    ProvenanceChain.empty.recordPersistFails.latest
      = ProvenanceChain.empty.latest ∧
    ProvenanceChain.empty.recordPersistFails.blocks
      = ProvenanceChain.empty.blocks ∧
    ProvenanceChain.empty.recordPersistFails.idx
      = ProvenanceChain.empty.idx + 1 ∧
    ((ProvenanceChain.empty.recordPersistFails.record
        ⟨"A", "input", 5⟩).verify_chain 1
      (ProvenanceChain.empty.recordPersistFails.record
        ⟨"A", "input", 5⟩).idx).toBool = false := by
  exact ⟨rfl, rfl, rfl, rfl⟩

theorem emit_getLast (bus : EventBus) (e : Event) :
    (bus.emit e).history.getLast? = some e := by
  simp only [EventBus.emit]
  by_cases h : (bus.history ++ [e]).length > 1000
  · rw [if_pos h]
    have hlen : 1 ≤ bus.history.length := by simp at h; omega
    rw [List.drop_append_of_le_length (by omega)]
    exact List.getLast?_concat _
  · rw [if_neg h]
    exact List.getLast?_concat _

/-- C3 counterexample: flagging does *not* record the flag to the
provenance chain — on a ghost whose chain holds one block, `_flag`
leaves the chain (hence its length, still 1) unchanged, refuting "the
chain length increases by at least one per flag". -/
theorem C3_flag_counterexample :
    (({ chain := some (ProvenanceChain.empty.record ⟨"A", "input", 1⟩)
        events := ⟨[]⟩, input_buffer := [], flags := [] } :
        Ghost).flagInternal "velocity_spike" 1 "desc"
        (InputSnapshot.fresh 2) 2).chain
      = some (ProvenanceChain.empty.record ⟨"A", "input", 1⟩) ∧
    (ProvenanceChain.empty.record ⟨"A", "input", 1⟩).blocks.length = 1 := by
  exact ⟨rfl, rfl⟩

/-- C3 (amended).  The orchestrator's flag operation constructs a `Flag`
carrying the chain's `latest_hash` at flag time as its integrity anchor
(`None` when the chain is uninitialized), appends it to the flag list and
emits a bus event of type "flag"; it does **not** record the flag to the
Provenance Chain (the chain state is unchanged) and maintains no lattice
at all. -/
theorem C3_flag_amended (g : Ghost) (ft : String) (conf : ℚ)
    (desc : String) (snap : InputSnapshot) (now : Nat) :
    (g.flagInternal ft conf desc snap now).chain = g.chain ∧
    (g.flagInternal ft conf desc snap now).flags = g.flags ++
      [{ timestamp := now, flag_type := ft, confidence := conf
         description := desc, snapshot := snap
         merkle_hash := g.chain.map (·.latest), clip_path := none }] ∧
    ((g.flagInternal ft conf desc snap now).events.history.getLast?).map
        (·.type) = some "flag" := by
  refine ⟨rfl, rfl, ?_⟩
  simp only [Ghost.flagInternal]
  rw [emit_getLast]
  rfl

/-- C10.  The public `HoloGhost.flag` never lacks an observation: with an
empty input buffer it synthesizes a fresh default `InputSnapshot` stamped
with the current time, otherwise it attaches the most recent buffered
snapshot; in both cases the flag is appended to the flag list and a bus
event of type "flag" is emitted. -/
theorem C10_public_flag (g : Ghost) (ft : String) (conf : ℚ)
    (desc : String) (now : Nat) :
    (g.input_buffer = [] →
      (g.flag ft conf desc now).flags = g.flags ++
        [{ timestamp := now, flag_type := ft, confidence := conf
           description := desc, snapshot := InputSnapshot.fresh now
           merkle_hash := g.chain.map (·.latest), clip_path := none }]) ∧
    (∀ s, g.input_buffer.getLast? = some s →
      (g.flag ft conf desc now).flags = g.flags ++
        [{ timestamp := now, flag_type := ft, confidence := conf
           description := desc, snapshot := s
           merkle_hash := g.chain.map (·.latest), clip_path := none }]) ∧
    ((g.flag ft conf desc now).events.history.getLast?).map (·.type)
      = some "flag" := by
  refine ⟨?_, ?_, ?_⟩
  · intro hbuf
    simp only [Ghost.flag, hbuf]
    rfl
  · intro s hs
    simp only [Ghost.flag, hs]
    rfl
  · simp only [Ghost.flag, Ghost.flagInternal]
    rw [emit_getLast]
    rfl

/-- Witness for C10 at both branch hypotheses: a ghost with an empty
buffer flags with a fresh snapshot stamped `7`; a ghost whose buffer
holds a snapshot stamped `3` flags with that snapshot. -/
theorem C10_public_flag_witness :
    (({ chain := none, events := ⟨[]⟩, input_buffer := [], flags := [] } :
        Ghost).flag "manual" 1 "d" 7).flags
      = [{ timestamp := 7, flag_type := "manual", confidence := 1
           description := "d", snapshot := InputSnapshot.fresh 7
           merkle_hash := none, clip_path := none }] ∧
    (({ chain := none, events := ⟨[]⟩
        input_buffer := [InputSnapshot.fresh 3], flags := [] } :
        Ghost).flag "manual" 1 "d" 7).flags
      = [{ timestamp := 7, flag_type := "manual", confidence := 1
           description := "d", snapshot := InputSnapshot.fresh 3
           merkle_hash := none, clip_path := none }] := by
  constructor
  · exact (C10_public_flag _ "manual" 1 "d" 7).1 rfl
  · exact (C10_public_flag _ "manual" 1 "d" 7).2.1 (InputSnapshot.fresh 3) rfl

theorem backReach_trans {edges : List LatticeEdge} {a b c : String}
    (h1 : BackReach edges a b) (h2 : BackReach edges b c) :
    BackReach edges a c := by
  induction h2 with
  | refl => exact h1
  | step e he _ ih => exact BackReach.step e he ih

/-- Master invariant of the lineage traversal: it preserves `LineageInv`
(visited ids cover collected ids, collected ids distinct), only appends
to the collected lineage, and every newly collected node is a backward
ancestor of the queried id (resp. of one of the pending parent ids). -/
theorem trace_spec (lat : CausalLattice) (hwf : lat.WF) : ∀ fuel : Nat,
    (∀ nid visited lineage,
      LineageInv (visited, lineage) →
      LineageInv (traceOne lat fuel nid visited lineage) ∧
      (∃ ext, (traceOne lat fuel nid visited lineage).2 = lineage ++ ext) ∧
      (∀ n ∈ (traceOne lat fuel nid visited lineage).2,
        n ∈ lineage ∨ BackReach lat.edges nid n.id)) ∧
    (∀ ps visited lineage,
      LineageInv (visited, lineage) →
      LineageInv (traceMany lat fuel ps visited lineage) ∧
      (∃ ext, (traceMany lat fuel ps visited lineage).2 = lineage ++ ext) ∧
      (∀ n ∈ (traceMany lat fuel ps visited lineage).2,
        n ∈ lineage ∨ ∃ p ∈ ps, BackReach lat.edges p n.id)) := by
  intro fuel
  induction fuel with
  | zero =>
    have hOne : ∀ nid visited lineage,
        LineageInv (visited, lineage) →
        LineageInv (traceOne lat 0 nid visited lineage) ∧
        (∃ ext, (traceOne lat 0 nid visited lineage).2 = lineage ++ ext) ∧
        (∀ n ∈ (traceOne lat 0 nid visited lineage).2,
          n ∈ lineage ∨ BackReach lat.edges nid n.id) := by
      intro nid visited lineage hInv
      have hred : traceOne lat 0 nid visited lineage = (visited, lineage) := by
        rw [traceOne]
      rw [hred]
      exact ⟨hInv, ⟨[], by simp⟩, fun n hn => Or.inl hn⟩
    refine ⟨hOne, ?_⟩
    intro ps
    induction ps with
    | nil =>
      intro visited lineage hInv
      have hred : traceMany lat 0 [] visited lineage = (visited, lineage) := by
        rw [traceMany]
      rw [hred]
      exact ⟨hInv, ⟨[], by simp⟩, fun n hn => Or.inl hn⟩
    | cons p ps ihps =>
      intro visited lineage hInv
      have hred : traceMany lat 0 (p :: ps) visited lineage
          = traceMany lat 0 ps visited lineage := by
        rw [traceMany, traceOne]
      rw [hred]
      obtain ⟨hI, hext, hr⟩ := ihps visited lineage hInv
      refine ⟨hI, hext, ?_⟩
      intro n hn
      rcases hr n hn with h | ⟨q, hq, hbr⟩
      · exact Or.inl h
      · exact Or.inr ⟨q, List.mem_cons_of_mem _ hq, hbr⟩
  | succ fuel ihf =>
    obtain ⟨ihOne, ihMany⟩ := ihf
    have hOne : ∀ nid visited lineage,
        LineageInv (visited, lineage) →
        LineageInv (traceOne lat (fuel + 1) nid visited lineage) ∧
        (∃ ext, (traceOne lat (fuel + 1) nid visited lineage).2
          = lineage ++ ext) ∧
        (∀ n ∈ (traceOne lat (fuel + 1) nid visited lineage).2,
          n ∈ lineage ∨ BackReach lat.edges nid n.id) := by
      intro nid visited lineage hInv
      by_cases hv : nid ∈ visited
      · have hred : traceOne lat (fuel + 1) nid visited lineage
            = (visited, lineage) := by
          rw [traceOne, if_pos hv]
        rw [hred]
        exact ⟨hInv, ⟨[], by simp⟩, fun n hn => Or.inl hn⟩
      · rcases hfind : lookupNode lat.nodes nid with _ | p
        · have hred : traceOne lat (fuel + 1) nid visited lineage
              = (nid :: visited, lineage) := by
            rw [traceOne, if_neg hv, hfind]
          rw [hred]
          refine ⟨⟨fun n hn => List.mem_cons_of_mem _ (hInv.1 n hn),
            hInv.2⟩, ⟨[], by simp⟩, fun n hn => Or.inl hn⟩
        · have hpid : p.2.id = nid := by
            have h1 := List.find?_some hfind
            have h2 := List.mem_of_find?_eq_some hfind
            have h3 := hwf p h2
            simp at h1
            rw [h3, h1]
          have hred : traceOne lat (fuel + 1) nid visited lineage
              = traceMany lat fuel
                  ((lat.edges.filter (fun e => e.target_id == nid)).map
                    (fun e => e.source_id))
                  (nid :: visited) (lineage ++ [p.2]) := by
            rw [traceOne, if_neg hv, hfind]
          have hInv' : LineageInv (nid :: visited, lineage ++ [p.2]) := by
            constructor
            · intro n hn
              rcases List.mem_append.mp hn with h | h
              · exact List.mem_cons_of_mem _ (hInv.1 n h)
              · simp at h
                rw [h, hpid]
                exact List.mem_cons_self _ _
            · rw [List.map_append, List.nodup_append]
              refine ⟨hInv.2, by simp, ?_⟩
              intro x hx hx2
              rcases List.mem_map.mp hx with ⟨n, hn, rfl⟩
              simp at hx2
              have hmemv : n.id ∈ visited := hInv.1 n hn
              rw [hx2, hpid] at hmemv
              exact hv hmemv
          obtain ⟨hI, ⟨ext, hext⟩, hr⟩ := ihMany
            ((lat.edges.filter (fun e => e.target_id == nid)).map
              (fun e => e.source_id)) (nid :: visited) (lineage ++ [p.2])
            hInv'
          rw [hred]
          refine ⟨hI, ⟨[p.2] ++ ext, by rw [hext, List.append_assoc]⟩, ?_⟩
          intro n hn
          rcases hr n hn with h | ⟨q, hq, hbr⟩
          · rcases List.mem_append.mp h with h1 | h1
            · exact Or.inl h1
            · simp at h1
              right
              rw [h1, hpid]
              exact BackReach.refl nid
          · right
            rcases List.mem_map.mp hq with ⟨e, he, rfl⟩
            have hef := List.mem_filter.mp he
            have htarget : e.target_id = nid := by simpa using hef.2
            refine backReach_trans ?_ hbr
            have hr0 : BackReach lat.edges nid e.target_id := by
              rw [htarget]
              exact BackReach.refl nid
            exact BackReach.step e hef.1 hr0
    refine ⟨hOne, ?_⟩
    intro ps
    induction ps with
    | nil =>
      intro visited lineage hInv
      have hred : traceMany lat (fuel + 1) [] visited lineage
          = (visited, lineage) := by
        rw [traceMany]
      rw [hred]
      exact ⟨hInv, ⟨[], by simp⟩, fun n hn => Or.inl hn⟩
    | cons p ps ihps =>
      intro visited lineage hInv
      have hred : traceMany lat (fuel + 1) (p :: ps) visited lineage
          = traceMany lat (fuel + 1) ps
              (traceOne lat (fuel + 1) p visited lineage).1
              (traceOne lat (fuel + 1) p visited lineage).2 := by
        rw [traceMany]
      obtain ⟨hI1, ⟨ext1, hext1⟩, hr1⟩ := hOne p visited lineage hInv
      obtain ⟨hI2, ⟨ext2, hext2⟩, hr2⟩ := ihps
        (traceOne lat (fuel + 1) p visited lineage).1
        (traceOne lat (fuel + 1) p visited lineage).2 hI1
      rw [hred]
      refine ⟨hI2, ⟨ext1 ++ ext2, by
        rw [hext2, hext1, List.append_assoc]⟩, ?_⟩
      intro n hn
      rcases hr2 n hn with h | ⟨q, hq, hbr⟩
      · rcases hr1 n h with h2 | h2
        · exact Or.inl h2
        · exact Or.inr ⟨p, List.mem_cons_self _ _, h2⟩
      · exact Or.inr ⟨q, List.mem_cons_of_mem _ hq, hbr⟩

/-- C7 counterexample: with depth bound 0 (a legal Python int argument),
`get_lineage` returns the empty list even though the queried node exists
in the lattice — so the queried node is *not* returned first. -/
theorem C7_lineage_counterexample :
    ({ nodes := [("n", { id := "n" })], edges := [] } :
      CausalLattice).get_lineage "n" 0 = [] ∧
    hasKey ({ nodes := [("n", { id := "n" })], edges := [] } :
      CausalLattice).nodes "n" = true := by
  constructor
  · unfold CausalLattice.get_lineage
    rw [show ((0 : Int)).toNat = 0 from rfl, traceOne]
  · rfl

/-- C7 (amended).  For every well-formed lattice (each stored key equals
its node's id — the invariant `add_node` maintains), every node id and
every depth bound: `get_lineage` terminates (it is a total function),
returns each node at most once, traverses only backward along edges
(ancestors only), and returns the queried node first whenever the node
exists in the lattice and the depth bound is at least 1 (with
`depth ≤ 0` the result is empty, not starting with the queried node). -/
theorem C7_lineage (lat : CausalLattice) (node_id : String) (depth : Int)
    (hwf : lat.WF) :
    ((lat.get_lineage node_id depth).map (fun n => n.id)).Nodup ∧
    (∀ n ∈ lat.get_lineage node_id depth,
      BackReach lat.edges node_id n.id) ∧
    (∀ p, lookupNode lat.nodes node_id = some p → 1 ≤ depth →
      (lat.get_lineage node_id depth).head? = some p.2) := by
  have hInv0 : LineageInv ([], []) := ⟨by simp, by simp⟩
  obtain ⟨hI, ⟨ext, hext⟩, hr⟩ :=
    (trace_spec lat hwf depth.toNat).1 node_id [] [] hInv0
  refine ⟨hI.2, ?_, ?_⟩
  · intro n hn
    rcases hr n hn with h | h
    · exact absurd h (List.not_mem_nil n)
    · exact h
  · intro p hp hd
    obtain ⟨d, hdnat⟩ : ∃ d, depth.toNat = d + 1 :=
      ⟨depth.toNat - 1, by omega⟩
    have hpid : p.2.id = node_id := by
      have h1 := List.find?_some hp
      have h2 := List.mem_of_find?_eq_some hp
      have h3 := hwf p h2
      simp at h1
      rw [h3, h1]
    show (traceOne lat depth.toNat node_id [] []).2.head? = some p.2
    rw [hdnat]
    have hstep : traceOne lat (d + 1) node_id [] []
        = traceMany lat d
            ((lat.edges.filter (fun e => e.target_id == node_id)).map
              (fun e => e.source_id)) [node_id] [p.2] := by
      rw [traceOne, if_neg (List.not_mem_nil node_id), hp]
      rfl
    rw [hstep]
    have hInv1 : LineageInv ([node_id], [p.2]) := by
      refine ⟨?_, by simp⟩
      intro n hn
      simp at hn
      rw [hn, hpid]
      exact List.mem_cons_self _ _
    obtain ⟨-, ⟨ext2, hext2⟩, -⟩ := (trace_spec lat hwf d).2
      ((lat.edges.filter (fun e => e.target_id == node_id)).map
        (fun e => e.source_id)) [node_id] [p.2] hInv1
    rw [hext2]
    rfl

/-- Witness for C7 at the spec's scenario: an "obs" node and a "flag"
child; `get_lineage("n2", 5)` has pairwise distinct ids and starts with
the queried flag node. -/
theorem C7_lineage_witness :
    ((demoLatticeC7.get_lineage "n2" 5).map (fun n => n.id)).Nodup ∧
    (demoLatticeC7.get_lineage "n2" 5).head?
      = some { id := "n2", type := "flag" } := by
  refine ⟨(C7_lineage demoLatticeC7 "n2" 5 (by unfold CausalLattice.WF; decide)).1, ?_⟩
  exact (C7_lineage demoLatticeC7 "n2" 5 (by unfold CausalLattice.WF; decide)).2.2
    ("n2", { id := "n2", type := "flag" }) rfl (by decide)

/-- C8.  `prune(t)` keeps exactly the nodes with `strength ≥ t`, removes
every edge with a removed endpoint, leaves no edge referencing an absent
node, and is idempotent. -/
theorem C8_prune (lat : CausalLattice) (t : ℚ) :
    (∀ p, p ∈ (lat.prune t).nodes ↔ p ∈ lat.nodes ∧ t ≤ p.2.strength) ∧
    (∀ e ∈ lat.edges,
      (hasKey (lat.prune t).nodes e.source_id = false ∨
        hasKey (lat.prune t).nodes e.target_id = false) →
      e ∉ (lat.prune t).edges) ∧
    (∀ e ∈ (lat.prune t).edges,
      hasKey (lat.prune t).nodes e.source_id = true ∧
      hasKey (lat.prune t).nodes e.target_id = true) ∧
    (lat.prune t).prune t = lat.prune t := by
  have hmem3 : ∀ e ∈ (lat.prune t).edges,
      hasKey (lat.prune t).nodes e.source_id = true ∧
      hasKey (lat.prune t).nodes e.target_id = true := by
    intro e he
    have h2 := (List.mem_filter.mp he).2
    simpa [Bool.and_eq_true] using h2
  refine ⟨?_, ?_, hmem3, ?_⟩
  · intro p
    rw [show (lat.prune t).nodes
      = lat.nodes.filter (fun p => decide (t ≤ p.2.strength)) from rfl]
    rw [List.mem_filter]
    simp
  · intro e he hbad hmem
    have h2 := hmem3 e hmem
    rcases hbad with h | h
    · rw [h2.1] at h
      cases h
    · rw [h2.2] at h
      cases h
  · have hn : (lat.prune t).nodes.filter (fun p => decide (t ≤ p.2.strength))
        = (lat.prune t).nodes :=
      List.filter_eq_self.mpr (fun a ha => (List.mem_filter.mp ha).2)
    have h4b : ((lat.prune t).prune t).edges = (lat.prune t).edges := by
      show (lat.prune t).edges.filter _ = (lat.prune t).edges
      apply List.filter_eq_self.mpr
      intro e he
      have h3 := hmem3 e he
      rw [hn, h3.1, h3.2]
      rfl
    have h4a : ((lat.prune t).prune t).nodes = (lat.prune t).nodes := hn
    have heta : (lat.prune t).prune t
        = ⟨((lat.prune t).prune t).nodes, ((lat.prune t).prune t).edges⟩ :=
      rfl
    rw [heta, h4a, h4b]

/-- Witness for C8 on a concrete lattice: the weak node "a"
(strength 0 < 1) is pruned at threshold 1, the strong node "b" survives,
the edge into "b" from the removed "a" is gone, the surviving edge b→c
has both endpoints present, and pruning twice equals pruning once. -/
theorem C8_prune_witness :
    ("a", { id := "a", strength := 0 : LatticeNode })
      ∉ (demoLatticeC8.prune 1).nodes ∧
    ("b", { id := "b" : LatticeNode }) ∈ (demoLatticeC8.prune 1).nodes ∧
    ({ source_id := "a", target_id := "b" : LatticeEdge })
      ∉ (demoLatticeC8.prune 1).edges ∧
    (hasKey (demoLatticeC8.prune 1).nodes "b" = true ∧
      hasKey (demoLatticeC8.prune 1).nodes "c" = true) ∧
    (demoLatticeC8.prune 1).prune 1 = demoLatticeC8.prune 1 := by
  refine ⟨?_, ?_, ?_, ?_, ?_⟩
  · intro hmem
    have := ((C8_prune demoLatticeC8 1).1 _).mp hmem
    have h2 := this.2
    norm_num at h2
  · exact ((C8_prune demoLatticeC8 1).1 _).mpr ⟨by decide, by norm_num⟩
  · exact (C8_prune demoLatticeC8 1).2.1 _ (by decide)
      (Or.inl (by decide))
  · exact (C8_prune demoLatticeC8 1).2.2.1
      { source_id := "b", target_id := "c" } (by decide)
  · exact (C8_prune demoLatticeC8 1).2.2.2

/-- `int(str(k)) = k`: the decimal-string coercion of an integer dict
key on `save` is inverted exactly by `load`. -/
theorem keyStr_roundtrip (k : Int) : keyParse (keyStr k) = k := by
  unfold keyStr keyParse
  by_cases h : k < 0
  · rw [if_pos (decide_eq_true h)]
    show -(((Nat.ofDigits 10 (Nat.digits 10 k.natAbs) : ℕ)) : ℤ) = k
    rw [Nat.ofDigits_digits]
    omega
  · rw [if_neg (by simp [decide_eq_false h])]
    show (((Nat.ofDigits 10 (Nat.digits 10 k.natAbs) : ℕ)) : ℤ) = k
    rw [Nat.ofDigits_digits]
    omega

/-- C5.  `load(save(identity))` restores every serialized field exactly:
`player_id`, `velocity_profile` with its integer bucket keys and counts,
the heat grid, and the exact order and contents of `timing_priors`,
`click_rhythms`, per-key `keypress_durations` and `reaction_times`. -/
theorem C5_identity_roundtrip (p : PerformanceIdentity) :
    (PerformanceIdentity.load p.save).player_id = p.player_id ∧
    (PerformanceIdentity.load p.save).velocity_profile
      = p.velocity_profile ∧
    (PerformanceIdentity.load p.save).spatial_heat_map
      = p.spatial_heat_map ∧
    (PerformanceIdentity.load p.save).timing_priors = p.timing_priors ∧
    (PerformanceIdentity.load p.save).click_rhythms = p.click_rhythms ∧
    (PerformanceIdentity.load p.save).keypress_durations
      = p.keypress_durations ∧
    (PerformanceIdentity.load p.save).reaction_times
      = p.reaction_times := by
  refine ⟨rfl, ?_, rfl, rfl, rfl, rfl, rfl⟩
  show (p.velocity_profile.map (fun q => (keyStr q.1, q.2))).map
      (fun q => (keyParse q.1, q.2)) = p.velocity_profile
  rw [List.map_map]
  conv_rhs => rw [← List.map_id p.velocity_profile]
  apply List.map_congr_left
  intro q _
  simp [keyStr_roundtrip]

theorem lastN_length_le (n : Nat) (l : List ℚ) : (lastN n l).length ≤ n := by
  unfold lastN
  rw [List.length_drop]
  omega

/-- One bounded append on a FIFO window is the FIFO window of the longer
history: the oldest entry is exactly what `pop(0)` evicts. -/
theorem boundedAppend_lastN (cap : Nat) (hcap : 1 ≤ cap) (L : List ℚ)
    (x : ℚ) : boundedAppend cap (lastN cap L) x = lastN cap (L ++ [x]) := by
  unfold boundedAppend lastN
  by_cases h : L.length < cap
  · have h1 : L.length - cap = 0 := by omega
    rw [h1, List.drop_zero]
    rw [if_neg (by rw [List.length_append]; simp; omega)]
    have h2 : (L ++ [x]).length - cap = 0 := by
      rw [List.length_append]; simp; omega
    rw [h2, List.drop_zero]
  · have hlen : (L.drop (L.length - cap)).length = cap := by
      rw [List.length_drop]; omega
    rw [if_pos (by rw [List.length_append, hlen]; simp)]
    rw [List.drop_append_of_le_length (by omega)]
    rw [List.drop_drop]
    rw [List.drop_append_of_le_length
      (by rw [List.length_append]; simp; omega)]
    congr 2
    rw [List.length_append]
    simp
    omega

theorem foldl_boundedAppend_lastN (cap : Nat) (hcap : 1 ≤ cap) :
    ∀ (xs L : List ℚ),
    xs.foldl (boundedAppend cap) (lastN cap L) = lastN cap (L ++ xs) := by
  intro xs
  induction xs with
  | nil => intro L; simp
  | cons x xs ih =>
    intro L
    show xs.foldl (boundedAppend cap) (boundedAppend cap (lastN cap L) x)
      = lastN cap (L ++ x :: xs)
    rw [boundedAppend_lastN cap hcap, ih (L ++ [x])]
    simp

theorem acceptedDeltas_mem : ∀ (ss : List IdSnapshot) (last d : ℚ),
    d ∈ acceptedDeltas last ss → 0 < d ∧ d < 2 := by
  intro ss
  induction ss with
  | nil =>
    intro last d hd
    simp [acceptedDeltas] at hd
  | cons s ss ih =>
    intro last d hd
    have he : acceptedDeltas last (s :: ss) =
        (if last > 0 ∧ 0 < s.timestamp - last ∧ s.timestamp - last < 2 then
          [s.timestamp - last] else []) ++ acceptedDeltas s.timestamp ss := rfl
    rw [he] at hd
    rcases List.mem_append.mp hd with h | h
    · by_cases hc : last > 0 ∧ 0 < s.timestamp - last ∧
          s.timestamp - last < 2
      · rw [if_pos hc] at h
        simp at h
        rw [h]
        exact ⟨hc.2.1, hc.2.2⟩
      · rw [if_neg hc] at h
        cases h
    · exact ih s.timestamp d h

theorem updates_timing_char : ∀ (ss : List IdSnapshot)
    (p : PerformanceIdentity) (L : List ℚ),
    p.timing_priors = lastN 1000 L →
    (p.updates ss).timing_priors
      = lastN 1000 (L ++ acceptedDeltas p.lastEventTime ss) := by
  intro ss
  induction ss with
  | nil =>
    intro p L h
    simpa [PerformanceIdentity.updates, acceptedDeltas] using h
  | cons s ss ih =>
    intro p L h
    have hc0 : (p.update s).timing_priors =
        if p.lastEventTime > 0 ∧ 0 < s.timestamp - p.lastEventTime ∧
            s.timestamp - p.lastEventTime < 2 then
          boundedAppend 1000 p.timing_priors (s.timestamp - p.lastEventTime)
        else p.timing_priors := rfl
    have hlast : (p.update s).lastEventTime = s.timestamp := rfl
    have he : acceptedDeltas p.lastEventTime (s :: ss) =
        (if p.lastEventTime > 0 ∧ 0 < s.timestamp - p.lastEventTime ∧
            s.timestamp - p.lastEventTime < 2 then
          [s.timestamp - p.lastEventTime] else [])
          ++ acceptedDeltas s.timestamp ss := rfl
    show ((p.update s).updates ss).timing_priors = _
    by_cases hc : p.lastEventTime > 0 ∧ 0 < s.timestamp - p.lastEventTime ∧
        s.timestamp - p.lastEventTime < 2
    · have ht : (p.update s).timing_priors
          = lastN 1000 (L ++ [s.timestamp - p.lastEventTime]) := by
        rw [hc0, if_pos hc, h, boundedAppend_lastN 1000 (by omega)]
      rw [ih (p.update s) (L ++ [s.timestamp - p.lastEventTime]) ht, hlast,
        he, if_pos hc, List.append_assoc]
    · have ht : (p.update s).timing_priors = lastN 1000 L := by
        rw [hc0, if_neg hc, h]
      rw [ih (p.update s) L ht, hlast, he, if_neg hc]
      simp

theorem alookup_aset_self {K V : Type} [BEq K] [LawfulBEq K]
    (m : List (K × V)) (k : K) (v : V) :
    alookup (aset m k v) k = some v := by
  induction m with
  | nil => simp [aset, alookup]
  | cons q rest ih =>
    obtain ⟨k', v'⟩ := q
    by_cases h : k' == k
    · rw [show aset ((k', v') :: rest) k v = (k, v) :: rest from by
        rw [aset, if_pos h]]
      simp [alookup]
    · rw [show aset ((k', v') :: rest) k v = (k', v') :: aset rest k v from by
        rw [aset, if_neg h]]
      rw [show alookup ((k', v') :: aset rest k v) k
          = alookup (aset rest k v) k from by
        simp [alookup, List.find?, h]]
      exact ih

theorem alookup_aset_ne {K V : Type} [BEq K] [LawfulBEq K]
    (m : List (K × V)) (k k' : K) (v : V) (hne : k' ≠ k) :
    alookup (aset m k v) k' = alookup m k' := by
  induction m with
  | nil =>
    have hf : (k == k') = false := by simp [Ne.symm hne]
    simp [aset, alookup, List.find?, hf]
  | cons q rest ih =>
    obtain ⟨k0, v0⟩ := q
    by_cases h : k0 == k
    · have hk0 : k0 = k := eq_of_beq h
      rw [show aset ((k0, v0) :: rest) k v = (k, v) :: rest from by
        rw [aset, if_pos h]]
      have hf : (k == k') = false := by simp [Ne.symm hne]
      have hf0 : (k0 == k') = false := by simp [hk0, Ne.symm hne]
      simp [alookup, List.find?, hf, hf0]
    · rw [show aset ((k0, v0) :: rest) k v = (k0, v0) :: aset rest k v from by
        rw [aset, if_neg h]]
      by_cases h2 : k0 == k'
      · simp [alookup, List.find?, h2]
      · simp only [alookup, List.find?, h2]
        exact ih

/-- The per-snapshot keypress loop, viewed per key: fold the bounded
append over exactly the durations reported for that key. -/
theorem keypress_fold_char : ∀ (ts : List (String × ℚ))
    (m : List (String × List ℚ)) (k : String),
    (alookup (ts.foldl
        (fun m kv =>
          aset m kv.1 (boundedAppend 100 ((alookup m kv.1).getD []) kv.2))
        m) k).getD []
    = ((ts.filter (fun kv => kv.1 == k)).map (fun kv => kv.2)).foldl
        (boundedAppend 100) ((alookup m k).getD []) := by
  intro ts
  induction ts with
  | nil => intro m k; rfl
  | cons kv ts ih =>
    intro m k
    show (alookup (ts.foldl _
        (aset m kv.1 (boundedAppend 100 ((alookup m kv.1).getD []) kv.2)))
        k).getD [] = _
    by_cases h : kv.1 == k
    · have hk : kv.1 = k := eq_of_beq h
      rw [ih]
      rw [List.filter_cons_of_pos (by simpa using h)]
      rw [List.map_cons, List.foldl_cons]
      rw [hk, alookup_aset_self]
      rfl
    · rw [ih]
      rw [List.filter_cons_of_neg (by simpa using h)]
      rw [alookup_aset_ne]
      intro hq
      exact h (by simp [hq])

theorem updates_keypress_char : ∀ (ss : List IdSnapshot)
    (p : PerformanceIdentity) (k : String) (Lk : List ℚ),
    (alookup p.keypress_durations k).getD [] = lastN 100 Lk →
    (alookup (p.updates ss).keypress_durations k).getD []
      = lastN 100 (Lk ++ allDurations k ss) := by
  intro ss
  induction ss with
  | nil =>
    intro p k Lk h
    simpa [PerformanceIdentity.updates, allDurations] using h
  | cons s ss ih =>
    intro p k Lk h
    have h0 : (p.update s).keypress_durations
        = s.timings.foldl
            (fun m kv =>
              aset m kv.1
                (boundedAppend 100 ((alookup m kv.1).getD []) kv.2))
            p.keypress_durations := rfl
    have hstep : (alookup (p.update s).keypress_durations k).getD []
        = lastN 100
            (Lk ++ (s.timings.filter (fun kv => kv.1 == k)).map
              (fun kv => kv.2)) := by
      rw [h0, keypress_fold_char, h]
      exact foldl_boundedAppend_lastN 100 (by omega) _ _
    have he : allDurations k (s :: ss)
        = (s.timings.filter (fun kv => kv.1 == k)).map (fun kv => kv.2)
          ++ allDurations k ss := rfl
    show (alookup ((p.update s).updates ss).keypress_durations k).getD [] = _
    rw [ih (p.update s) k
      (Lk ++ (s.timings.filter (fun kv => kv.1 == k)).map (fun kv => kv.2))
      hstep, he, List.append_assoc]

/-- C9.  From a fresh identity, after any sequence of `update` calls:
`timing_priors` is exactly the most recent (at most) 1000 accepted
inter-event deltas in order (FIFO eviction of the oldest), every
accepted delta lies strictly between 0 and the 2.0-second upper bound
(out-of-range deltas are discarded without error), and each key's
`keypress_durations` history is exactly the most recent (at most) 100
reported durations for that key (FIFO). -/
theorem C9_identity_bounds (pid : String) (ss : List IdSnapshot) :
    ((PerformanceIdentity.fresh pid).updates ss).timing_priors
      = lastN 1000 (acceptedDeltas 0 ss) ∧
    ((PerformanceIdentity.fresh pid).updates ss).timing_priors.length
      ≤ 1000 ∧
    (∀ d ∈ acceptedDeltas 0 ss, 0 < d ∧ d < 2) ∧
    (∀ k, (alookup ((PerformanceIdentity.fresh pid).updates
        ss).keypress_durations k).getD []
      = lastN 100 (allDurations k ss)) ∧
    (∀ k, ((alookup ((PerformanceIdentity.fresh pid).updates
        ss).keypress_durations k).getD []).length ≤ 100) := by
  have h1 : ((PerformanceIdentity.fresh pid).updates ss).timing_priors
      = lastN 1000 (acceptedDeltas 0 ss) := by
    have := updates_timing_char ss (PerformanceIdentity.fresh pid) [] rfl
    simpa using this
  have h4 : ∀ k, (alookup ((PerformanceIdentity.fresh pid).updates
      ss).keypress_durations k).getD [] = lastN 100 (allDurations k ss) := by
    intro k
    have := updates_keypress_char ss (PerformanceIdentity.fresh pid) k [] rfl
    simpa using this
  refine ⟨h1, ?_, fun d hd => acceptedDeltas_mem ss 0 d hd, h4, ?_⟩
  · rw [h1]
    exact lastN_length_le _ _
  · intro k
    rw [h4 k]
    exact lastN_length_le _ _

/-- Witness for C9 on two concrete snapshots one second apart: the
accepted delta 1 is strictly inside (0, 2), and key "w"'s history equals
the FIFO window of its reported durations. -/
theorem C9_identity_bounds_witness :
    ((0 : ℚ) < 1 ∧ (1 : ℚ) < 2) ∧
    ((PerformanceIdentity.fresh "p").updates demoSnapshots).timing_priors
      = lastN 1000 (acceptedDeltas 0 demoSnapshots) ∧
    (alookup ((PerformanceIdentity.fresh "p").updates
        demoSnapshots).keypress_durations "w").getD []
      = lastN 100 (allDurations "w" demoSnapshots) := by
  have h := C9_identity_bounds "p" demoSnapshots
  refine ⟨h.2.2.1 1 ?_, h.1, h.2.2.2.1 "w"⟩
  show (1 : ℚ) ∈ acceptedDeltas 0 demoSnapshots
  norm_num [demoSnapshots, acceptedDeltas]

theorem normSqOn_nonneg (v : List (Int × ℚ)) (keys : List Int) :
    0 ≤ normSqOn v keys := by
  apply List.sum_nonneg
  intro y hy
  rcases List.mem_map.mp hy with ⟨k, -, rfl⟩
  exact mul_self_nonneg _

theorem profileGet_ne_mem {v : List (Int × ℚ)} {k : Int}
    (h : profileGet v k ≠ 0) : k ∈ v.map (fun p => p.1) := by
  unfold profileGet alookup at h
  rcases hf : v.find? (fun p => p.1 == k) with _ | p
  · rw [hf] at h
    simp at h
  · have h1 := List.find?_some hf
    have h2 := List.mem_of_find?_eq_some hf
    simp at h1
    rw [← h1]
    exact List.mem_map_of_mem _ h2

/-- C6 counterexample: the identity whose single bucket has count 0 has
a non-empty velocity profile yet `compare(x, x) = 0 ≠ 1` (the zero-norm
branch wins); and two identities with *no* buckets at all have
(vacuously) disjoint non-zero buckets yet compare to `1 ≠ 0`. -/
theorem C6_compare_counterexample :
    PerformanceIdentity.compare
      { player_id := "p", velocity_profile := [(0, 0)] }
      { player_id := "p", velocity_profile := [(0, 0)] } = 0 ∧
    ((0 : ℝ) ≠ 1) ∧
    PerformanceIdentity.compare (PerformanceIdentity.fresh "q")
      (PerformanceIdentity.fresh "q") = 1 ∧
    ((1 : ℝ) ≠ 0) := by
  refine ⟨?_, by norm_num, ?_, by norm_num⟩
  · have hk : unionKeys ([(0, 0)] : List (Int × ℚ))
        ([(0, 0)] : List (Int × ℚ)) = [0] := rfl
    have hs : normSqOn ([(0, 0)] : List (Int × ℚ)) [0] = 0 := by
      simp [normSqOn, profileGet, alookup, List.find?]
    unfold PerformanceIdentity.compare
    have hproj : ({ player_id := "p", velocity_profile := [(0, 0)] } :
        PerformanceIdentity).velocity_profile = [(0, (0 : ℚ))] := rfl
    rw [hproj, hk, if_neg (by simp), if_pos (Or.inl hs)]
  · unfold PerformanceIdentity.compare
    simp [PerformanceIdentity.fresh, unionKeys]

/-- C6 (amended).  `compare` is cosine similarity over the union of
velocity-bucket keys with missing keys as 0, and: an empty union gives
exactly 1.0; a non-empty union with either norm zero gives exactly 0.0;
`compare(x, x) = 1.0` for every `x` with at least one *non-zero* bucket
count; and identities with disjoint non-zero buckets and a non-empty
key union compare to exactly 0.0. -/
theorem C6_compare_policy :
    (∀ a b : PerformanceIdentity, a.velocity_profile = [] →
      b.velocity_profile = [] → a.compare b = 1) ∧
    (∀ a b : PerformanceIdentity,
      unionKeys a.velocity_profile b.velocity_profile ≠ [] →
      (Real.sqrt (normSqOn a.velocity_profile
          (unionKeys a.velocity_profile b.velocity_profile) : ℝ) = 0 ∨
        Real.sqrt (normSqOn b.velocity_profile
          (unionKeys a.velocity_profile b.velocity_profile) : ℝ) = 0) →
      a.compare b = 0) ∧
    (∀ x : PerformanceIdentity,
      (∃ k, profileGet x.velocity_profile k ≠ 0) → x.compare x = 1) ∧
    (∀ a b : PerformanceIdentity,
      unionKeys a.velocity_profile b.velocity_profile ≠ [] →
      (∀ k, profileGet a.velocity_profile k = 0 ∨
        profileGet b.velocity_profile k = 0) → a.compare b = 0) := by
  refine ⟨?_, ?_, ?_, ?_⟩
  · intro a b ha hb
    unfold PerformanceIdentity.compare
    rw [ha, hb]
    simp [unionKeys]
  · intro a b hne hz
    unfold PerformanceIdentity.compare
    rw [if_neg hne]
    rw [if_pos ?_]
    rcases hz with h | h
    · left
      have h2 := Real.sqrt_eq_zero'.mp h
      have h3 := normSqOn_nonneg a.velocity_profile
        (unionKeys a.velocity_profile b.velocity_profile)
      have h4 : ((normSqOn a.velocity_profile
          (unionKeys a.velocity_profile b.velocity_profile) : ℚ) : ℝ)
          = 0 := by
        have : (0 : ℝ) ≤ (normSqOn a.velocity_profile
            (unionKeys a.velocity_profile b.velocity_profile) : ℝ) := by
          exact_mod_cast h3
        linarith
      exact_mod_cast h4
    · right
      have h2 := Real.sqrt_eq_zero'.mp h
      have h3 := normSqOn_nonneg b.velocity_profile
        (unionKeys a.velocity_profile b.velocity_profile)
      have h4 : ((normSqOn b.velocity_profile
          (unionKeys a.velocity_profile b.velocity_profile) : ℚ) : ℝ)
          = 0 := by
        have : (0 : ℝ) ≤ (normSqOn b.velocity_profile
            (unionKeys a.velocity_profile b.velocity_profile) : ℝ) := by
          exact_mod_cast h3
        linarith
      exact_mod_cast h4
  · intro x hx
    obtain ⟨k, hk⟩ := hx
    have hkmem : k ∈ unionKeys x.velocity_profile x.velocity_profile :=
      List.mem_dedup.mpr (List.mem_append.mpr (Or.inl (profileGet_ne_mem hk)))
    have hne : unionKeys x.velocity_profile x.velocity_profile ≠ [] :=
      List.ne_nil_of_mem hkmem
    have hspos : 0 < normSqOn x.velocity_profile
        (unionKeys x.velocity_profile x.velocity_profile) := by
      have hterm : profileGet x.velocity_profile k *
          profileGet x.velocity_profile k ∈
          (unionKeys x.velocity_profile x.velocity_profile).map
            (fun k => profileGet x.velocity_profile k *
              profileGet x.velocity_profile k) :=
        List.mem_map_of_mem _ hkmem
      have hpos : 0 < profileGet x.velocity_profile k *
          profileGet x.velocity_profile k := mul_self_pos.mpr hk
      have hle := List.single_le_sum (l :=
          (unionKeys x.velocity_profile x.velocity_profile).map
            (fun k => profileGet x.velocity_profile k *
              profileGet x.velocity_profile k))
        (fun y hy => by
          rcases List.mem_map.mp hy with ⟨j, -, rfl⟩
          exact mul_self_nonneg _) _ hterm
      calc (0 : ℚ) < _ := hpos
        _ ≤ _ := hle
    unfold PerformanceIdentity.compare
    rw [if_neg hne]
    rw [if_neg (by
      intro h
      rcases h with h | h <;> exact absurd h (ne_of_gt hspos))]
    have hdot : dotOn x.velocity_profile x.velocity_profile
        (unionKeys x.velocity_profile x.velocity_profile)
        = normSqOn x.velocity_profile
          (unionKeys x.velocity_profile x.velocity_profile) := rfl
    rw [hdot]
    rw [Real.mul_self_sqrt (by exact_mod_cast normSqOn_nonneg _ _)]
    apply div_self
    exact_mod_cast ne_of_gt hspos
  · intro a b hne hz
    unfold PerformanceIdentity.compare
    rw [if_neg hne]
    by_cases hs : normSqOn a.velocity_profile
        (unionKeys a.velocity_profile b.velocity_profile) = 0 ∨
      normSqOn b.velocity_profile
        (unionKeys a.velocity_profile b.velocity_profile) = 0
    · rw [if_pos hs]
    · rw [if_neg hs]
      have hdot0 : dotOn a.velocity_profile b.velocity_profile
          (unionKeys a.velocity_profile b.velocity_profile) = 0 := by
        apply List.sum_eq_zero
        intro y hy
        rcases List.mem_map.mp hy with ⟨k, -, rfl⟩
        rcases hz k with h | h <;> rw [h] <;> ring
      rw [hdot0]
      simp

/-- Witness for C6 at the spec's scenarios: two fresh identities compare
to 1.0; `{0 ↦ 3}` against itself is 1.0; `{0 ↦ 3}` against `{500 ↦ 2}`
is 0.0; and an all-zero profile against a non-empty one is 0.0 via the
zero-norm branch. -/
theorem C6_compare_policy_witness :
    PerformanceIdentity.compare (PerformanceIdentity.fresh "a")
      (PerformanceIdentity.fresh "b") = 1 ∧
    PerformanceIdentity.compare
      { player_id := "x", velocity_profile := [(0, 3)] }
      { player_id := "x", velocity_profile := [(0, 3)] } = 1 ∧
    PerformanceIdentity.compare
      { player_id := "a", velocity_profile := [(0, 3)] }
      { player_id := "b", velocity_profile := [(500, 2)] } = 0 ∧
    PerformanceIdentity.compare
      { player_id := "a", velocity_profile := [(0, 0)] }
      { player_id := "b", velocity_profile := [(500, 2)] } = 0 := by
  refine ⟨C6_compare_policy.1 _ _ rfl rfl, ?_, ?_, ?_⟩
  · apply C6_compare_policy.2.2.1
    exact ⟨0, by norm_num [profileGet, alookup, List.find?]⟩
  · apply C6_compare_policy.2.2.2 _ _ (by decide)
    intro k
    by_cases hk : k = 0
    · right
      rw [hk]
      rfl
    · left
      have hb : ((0 : Int) == k) = false := by
        simp [Ne.symm hk]
      simp [profileGet, alookup, List.find?, hb]
  · apply C6_compare_policy.2.1 _ _ (by decide)
    left
    have hku : unionKeys ([(0, 0)] : List (Int × ℚ))
        ([(500, 2)] : List (Int × ℚ)) = [0, 500] := rfl
    have hp0 : profileGet ([(0, 0)] : List (Int × ℚ)) 0 = 0 := rfl
    have hp500 : profileGet ([(0, 0)] : List (Int × ℚ)) 500 = 0 := rfl
    have hs0 : normSqOn ([(0, 0)] : List (Int × ℚ))
        (unionKeys ([(0, 0)] : List (Int × ℚ))
          ([(500, 2)] : List (Int × ℚ))) = 0 := by
      rw [hku]
      unfold normSqOn
      rw [List.map_cons, List.map_cons, List.map_nil, hp0, hp500]
      norm_num
    show Real.sqrt _ = 0
    rw [show (normSqOn ([(0, 0)] : List (Int × ℚ))
        (unionKeys ([(0, 0)] : List (Int × ℚ))
          ([(500, 2)] : List (Int × ℚ))) : ℝ) = (0 : ℝ) by
      rw [hs0]; norm_num]
    exact Real.sqrt_zero

/-- C4.  `record` has no lock: its read-latest / compute-hash / persist /
advance-latest sequence is *not* an atomic critical section.  Under the
interleaving T1:bump, T1:hash+insert, T2:bump, T2:hash+insert, T1:advance,
T2:advance (both calls read `_latest_hash = "GENESIS"` before either
advances it), the two persisted blocks share the same `previous_hash`
(the chain forks) and `verify_chain(1, 2)` returns false — refuting the
claimed atomicity for every interleaving. -/
theorem C4_record_race :
    (recRun demoRace [0, 0, 1, 1, 0, 1]).chain.blocks.length = 2 ∧
    ((recRun demoRace [0, 0, 1, 1, 0, 1]).chain.get_block 1).map
      (fun b => b.previous_hash) = some Hash.genesis ∧
    ((recRun demoRace [0, 0, 1, 1, 0, 1]).chain.get_block 2).map
      (fun b => b.previous_hash) = some Hash.genesis ∧
    ((recRun demoRace [0, 0, 1, 1, 0, 1]).chain.verify_chain 1 2).toBool
      = false := by
  exact ⟨rfl, rfl, rfl, rfl⟩

end HoloGhost
